import Mathlib

/-!
Verification of the email-generator pipeline in `src/app.py`.

Strings are modelled as `List Char` (Python `str` over its characters; the
code only manipulates ASCII data, and `Char.toLower`, `Char.isAlpha`,
`Char.isDigit` agree with Python's `str.lower`, `[a-zA-Z]`, `[0-9]` there).
The single external effect, the DNS MX lookup performed by
`dns.resolver.resolve(domain, "MX")`, is modelled as an explicit resolver
argument of type `Resolver = List Char → Except DnsFailure (List MxRecord)`:
a successful lookup returns the record list, a failed one an error value,
which is exactly the boundary the `try/except` in `validate_mx` observes.
-/

namespace EmailGen

/-- The local-part character class `[a-zA-Z0-9._%+-]` of the regex in
`validate_syntax` (src/app.py line 54). -/
def isLocalChar (c : Char) : Bool :=
  c.isAlpha || c.isDigit || c = '.' || c = '_' || c = '%' || c = '+' || c = '-'

/-- The domain character class `[a-zA-Z0-9.-]` of the regex in
`validate_syntax` (src/app.py line 54). -/
def isDomainChar (c : Char) : Bool :=
  c.isAlpha || c.isDigit || c = '.' || c = '-'

/-- Python's `str.split(sep)` for a one-character separator: splits on every
occurrence of `sep`; the result is never empty (`"".split(sep) == [""]`). -/
def splitOnChar (sep : Char) : List Char → List (List Char)
  | [] => [[]]
  | c :: cs =>
      if c = sep then [] :: splitOnChar sep cs
      else
        match splitOnChar sep cs with
        | [] => [[c]]
        | h :: t => (c :: h) :: t

lemma splitOnChar_ne_nil (sep : Char) (l : List Char) : splitOnChar sep l ≠ [] := by
  cases l with
  | nil => simp [splitOnChar]
  | cons c cs =>
      by_cases h : c = sep
      · simp [splitOnChar, h]
      · simp only [splitOnChar, if_neg h]
        cases splitOnChar sep cs <;> simp

lemma splitOnChar_of_not_mem (sep : Char) (l : List Char) (h : sep ∉ l) :
    splitOnChar sep l = [l] := by
  induction l with
  | nil => rfl
  | cons c cs ih =>
      have hc : c ≠ sep := fun hc => h (hc ▸ List.mem_cons_self c cs)
      have hcs : sep ∉ cs := fun hm => h (List.mem_cons_of_mem c hm)
      simp only [splitOnChar, if_neg hc, ih hcs]

lemma splitOnChar_append (sep : Char) (a b : List Char) (h : sep ∉ a) :
    splitOnChar sep (a ++ sep :: b) = a :: splitOnChar sep b := by
  induction a with
  | nil => simp [splitOnChar]
  | cons c cs ih =>
      have hc : c ≠ sep := fun hc => h (hc ▸ List.mem_cons_self c cs)
      have hcs : sep ∉ cs := fun hm => h (List.mem_cons_of_mem c hm)
      simp only [List.cons_append, splitOnChar, List.append_eq, if_neg hc, ih hcs]

lemma splitOnChar_head (sep : Char) (l : List Char) :
    ∃ rest, splitOnChar sep l = (l.takeWhile (fun c => c != sep)) :: rest := by
  induction l with
  | nil => exact ⟨[], rfl⟩
  | cons c cs ih =>
      by_cases h : c = sep
      · refine ⟨splitOnChar sep cs, ?_⟩
        simp [splitOnChar, h, List.takeWhile_cons]
      · obtain ⟨rest, hrest⟩ := ih
        refine ⟨rest, ?_⟩
        have hbne : (c != sep) = true := by simp [h]
        simp [splitOnChar, if_neg h, hrest, List.takeWhile_cons, hbne]

/-- Splitting a list at the first occurrence of an element. -/
lemma exists_first_split (sep : Char) (l : List Char) (h : sep ∈ l) :
    ∃ a b, l = a ++ sep :: b ∧ sep ∉ a := by
  induction l with
  | nil => cases h
  | cons c cs ih =>
      by_cases hc : c = sep
      · exact ⟨[], cs, by simp [hc], by simp⟩
      · have hm : sep ∈ cs := by
          rcases List.mem_cons.mp h with h1 | h1
          · exact absurd h1.symm hc
          · exact h1
        obtain ⟨a, b, hab, hna⟩ := ih hm
        exact ⟨c :: a, b, by simp [hab], by
          simp only [List.mem_cons, not_or]
          exact ⟨fun hs => hc hs.symm, hna⟩⟩

/-- Python's `str.strip()`: remove leading and trailing whitespace. -/
def trimChars (s : List Char) : List Char :=
  ((s.dropWhile Char.isWhitespace).reverse.dropWhile Char.isWhitespace).reverse

/-- `full_name.split(" ")[0]` (src/app.py line 142). -/
def firstToken (s : List Char) : List Char :=
  (splitOnChar ' ' s).getD 0 []

/-- `full_name.split(" ")[-1]` (src/app.py line 143). -/
def lastToken (s : List Char) : List Char :=
  (splitOnChar ' ' s).getLastD []

/-- The name record derived from one title, mirroring the columns
`full_name`, `position`, `first_name`, `last_name` of src/app.py
lines 139-143. -/
structure ParsedName where
  full_name : List Char
  position : List Char
  first_name : List Char
  last_name : List Char
  deriving DecidableEq

/-- Title parsing, src/app.py lines 139-143:
`full_name = title.split("-")[0].strip()`,
`position = title.split("-")[1].strip()`,
`first_name = full_name.split(" ")[0]`,
`last_name = full_name.split(" ")[-1]`.
A title whose hyphen-split has fewer than two fields (no hyphen at all)
has no `[1]` field; this is the Name Parser's failure case, `none`. -/
def parseTitle (title : List Char) : Option ParsedName :=
  match splitOnChar '-' title with
  | x :: y :: _ =>
      let fn := trimChars x
      some { full_name := fn, position := trimChars y,
             first_name := firstToken fn, last_name := lastToken fn }
  | _ => none

/-!
## Syntax validator

`validate_syntax` (src/app.py lines 53-55) matches the address against the
Python regex `^[a-zA-Z0-9._%+-]+@[a-zA-Z0-9.-]+\.[a-zA-Z]{2,}$` with
`re.match`.  `re.match` anchors at the start; `$` (without `re.MULTILINE`)
matches at the end of the string or just before one newline at the very end
of the string, so the regex accepts exactly the strings of the stated shape,
optionally followed by a single trailing `'\n'`.
-/

/-- Python `$`: a pattern anchored by `$` sees the string with one trailing
newline, if present, removed. -/
def dropTrailingNewline (s : List Char) : List Char :=
  match s.reverse with
  | '\n' :: rest => rest.reverse
  | _ => s

/-- The part of the regex after `@`: `[a-zA-Z0-9.-]+\.[a-zA-Z]{2,}` matched
against the whole remainder.  The `[a-zA-Z]{2,}` suffix contains no dot, so
a match, if any, splits the remainder at its last dot. -/
def checkDomainPart (d : List Char) : Bool :=
  match d.reverse.dropWhile (fun c => c != '.') with
  | '.' :: revRest =>
      decide (2 ≤ (d.reverse.takeWhile (fun c => c != '.')).length) &&
        (d.reverse.takeWhile (fun c => c != '.')).all Char.isAlpha &&
        !revRest.isEmpty && revRest.all isDomainChar
  | _ => false

/-- The whole regex matched against the whole string (no `$`-newline
allowance).  The local-part class excludes `@`, so in any match the `@` of
the pattern is the first `@` of the string. -/
def matchEmailCore (s : List Char) : Bool :=
  match s.dropWhile (fun c => c != '@') with
  | '@' :: domainPart =>
      !(s.takeWhile (fun c => c != '@')).isEmpty &&
        (s.takeWhile (fun c => c != '@')).all isLocalChar &&
        checkDomainPart domainPart
  | _ => false

/-- `validate_syntax` of src/app.py lines 53-55 (named after the spec's
`checkSyntax`): `re.match(r"^[a-zA-Z0-9._%+-]+@[a-zA-Z0-9.-]+\.[a-zA-Z]{2,}$", email) is not None`. -/
def checkSyntax (email : List Char) : Bool :=
  matchEmailCore (dropTrailingNewline email)

/-- The syntax pattern exactly as the spec words it: one-or-more local-class
characters, then `@`, then one-or-more domain-class characters, then `.`,
then two-or-more letters — and nothing else (no trailing-newline allowance). -/
def specEmailPattern (s : List Char) : Prop :=
  ∃ l d t, s = l ++ '@' :: (d ++ '.' :: t) ∧
    l ≠ [] ∧ (∀ c ∈ l, isLocalChar c = true) ∧
    d ≠ [] ∧ (∀ c ∈ d, isDomainChar c = true) ∧
    2 ≤ t.length ∧ (∀ c ∈ t, c.isAlpha = true)

lemma span_append_cons (p : Char → Bool) (l : List Char) (x : Char) (r : List Char)
    (hl : ∀ c ∈ l, p c = true) (hx : p x = false) :
    (l ++ x :: r).takeWhile p = l ∧ (l ++ x :: r).dropWhile p = x :: r := by
  induction l with
  | nil => simp [List.takeWhile_cons, List.dropWhile_cons, hx]
  | cons c cs ih =>
      have hc : p c = true := hl c (List.mem_cons_self c cs)
      have ih' := ih fun d hd => hl d (List.mem_cons_of_mem c hd)
      simp [List.takeWhile_cons, List.dropWhile_cons, hc, ih'.1, ih'.2]

lemma dropWhile_head_false (p : Char → Bool) (l : List Char) (c : Char) (rest : List Char)
    (h : l.dropWhile p = c :: rest) : p c = false := by
  induction l with
  | nil => simp at h
  | cons a as ih =>
      by_cases ha : p a
      · rw [List.dropWhile_cons_of_pos ha] at h
        exact ih h
      · rw [List.dropWhile_cons_of_neg ha] at h
        injection h with h1 _
        subst h1
        exact Bool.eq_false_iff.mpr ha

lemma bne_of_isLocalChar {c : Char} (h : isLocalChar c = true) : (c != '@') = true := by
  rcases eq_or_ne c '@' with rfl | hne
  · exact absurd h (by decide)
  · simp [hne]

lemma bne_dot_of_isAlpha {c : Char} (h : c.isAlpha = true) : (c != '.') = true := by
  rcases eq_or_ne c '.' with rfl | hne
  · exact absurd h (by decide)
  · simp [hne]

lemma checkDomainPart_iff (dp : List Char) :
    checkDomainPart dp = true ↔
      ∃ d t, dp = d ++ '.' :: t ∧ d ≠ [] ∧ (∀ c ∈ d, isDomainChar c = true) ∧
        2 ≤ t.length ∧ (∀ c ∈ t, c.isAlpha = true) := by
  constructor
  · intro h
    unfold checkDomainPart at h
    rcases hdrop : dp.reverse.dropWhile (fun c => c != '.') with _ | ⟨c0, revRest⟩
    · rw [hdrop] at h
      simp at h
    · have hc : (c0 != '.') = false :=
        dropWhile_head_false (fun c => c != '.') dp.reverse c0 revRest hdrop
      have hc' : c0 = '.' := by simpa using hc
      subst hc'
      rw [hdrop] at h
      simp only [Bool.and_eq_true, decide_eq_true_eq, List.all_eq_true,
        Bool.not_eq_true', List.isEmpty_eq_false] at h
      obtain ⟨⟨⟨hlen, halpha⟩, hne⟩, hdom⟩ := h
      have hspan := @List.takeWhile_append_dropWhile _ (fun c => c != '.') dp.reverse
      rw [hdrop] at hspan
      refine ⟨revRest.reverse, (dp.reverse.takeWhile (fun c => c != '.')).reverse,
        ?_, ?_, ?_, ?_, ?_⟩
      · have : dp.reverse.reverse =
            (dp.reverse.takeWhile (fun c => c != '.') ++ '.' :: revRest).reverse := by
          rw [hspan]
        simpa [List.reverse_append] using this
      · simpa using hne
      · intro c hc
        exact hdom c (List.mem_reverse.mp hc)
      · simpa using hlen
      · intro c hc
        exact halpha c (List.mem_reverse.mp hc)
  · rintro ⟨d, t, rfl, hdne, hdom, hlen, halpha⟩
    have hrev : (d ++ '.' :: t).reverse = t.reverse ++ '.' :: d.reverse := by
      simp [List.reverse_append]
    have hsp := span_append_cons (fun c => c != '.') t.reverse '.' d.reverse
      (fun c hc => bne_dot_of_isAlpha (halpha c (List.mem_reverse.mp hc))) (by simp)
    unfold checkDomainPart
    rw [hrev, hsp.2, hsp.1]
    simp only [Bool.and_eq_true, decide_eq_true_eq, List.all_eq_true,
      Bool.not_eq_true', List.isEmpty_eq_false]
    refine ⟨⟨⟨by simpa using hlen, ?_⟩, by simpa using hdne⟩, ?_⟩
    · intro c hc
      exact halpha c (List.mem_reverse.mp hc)
    · intro c hc
      exact hdom c (List.mem_reverse.mp hc)

lemma matchEmailCore_iff (s : List Char) :
    matchEmailCore s = true ↔ specEmailPattern s := by
  constructor
  · intro h
    unfold matchEmailCore at h
    rcases hdrop : s.dropWhile (fun c => c != '@') with _ | ⟨c0, domainPart⟩
    · rw [hdrop] at h
      simp at h
    · have hc : (c0 != '@') = false :=
        dropWhile_head_false (fun c => c != '@') s c0 domainPart hdrop
      have hc' : c0 = '@' := by simpa using hc
      subst hc'
      rw [hdrop] at h
      simp only [Bool.and_eq_true, List.all_eq_true, Bool.not_eq_true',
        List.isEmpty_eq_false] at h
      obtain ⟨⟨hne, hlocal⟩, hdomain⟩ := h
      obtain ⟨d, t, hdp, hdne, hdom, hlen, halpha⟩ := (checkDomainPart_iff _).mp hdomain
      have hspan := @List.takeWhile_append_dropWhile _ (fun c => c != '@') s
      rw [hdrop] at hspan
      exact ⟨s.takeWhile (fun c => c != '@'), d, t,
        by rw [← hdp]; exact hspan.symm, hne, hlocal, hdne, hdom, hlen, halpha⟩
  · rintro ⟨l, d, t, rfl, hlne, hlocal, hdne, hdom, hlen, halpha⟩
    have hsp := span_append_cons (fun c => c != '@') l '@' (d ++ '.' :: t)
      (fun c hc => bne_of_isLocalChar (hlocal c hc)) (by simp)
    unfold matchEmailCore
    rw [hsp.2, hsp.1]
    simp only [Bool.and_eq_true, List.all_eq_true, Bool.not_eq_true',
      List.isEmpty_eq_false]
    exact ⟨⟨hlne, hlocal⟩, (checkDomainPart_iff _).mpr ⟨d, t, rfl, hdne, hdom, hlen, halpha⟩⟩

/-- A string is its `$`-trimmed form, possibly followed by one newline. -/
lemma dropTrailingNewline_cases (s : List Char) :
    s = dropTrailingNewline s ∨ s = dropTrailingNewline s ++ ['\n'] := by
  unfold dropTrailingNewline
  rcases hr : s.reverse with _ | ⟨c, rest⟩
  · left
    rfl
  · by_cases hc : c = '\n'
    · subst hc
      right
      have : s = ('\n' :: rest).reverse := by
        rw [← hr, List.reverse_reverse]
      simp only [this, List.reverse_cons]
    · left
      cases c
      simp_all [dropTrailingNewline]

/-!
## Domain reachability checker and validation classifier

`validate_mx` (src/app.py lines 58-63) performs the one external effect of
the program.  The DNS lookup is modelled as a resolver function passed in
explicitly: `Except.ok records` is a lookup that returned `records`,
`Except.error e` is a lookup that raised (NXDOMAIN, timeout, network error,
malformed domain, ... — the bare `except:` of the source catches them all).
-/

/-- One MX record as returned by `dns.resolver.resolve(domain, "MX")`. -/
structure MxRecord where
  priority : Nat
  exchange : List Char
  deriving DecidableEq

/-- The ways a DNS resolution can fail (all caught by the bare `except:`). -/
inductive DnsFailure where
  | nxdomain
  | timeout
  | networkError
  | malformedDomain
  deriving DecidableEq

/-- The DNS boundary: a resolver maps a domain to records or to a failure. -/
def Resolver : Type := List Char → Except DnsFailure (List MxRecord)

/-- `validate_mx` (src/app.py lines 58-63):
`try: records = dns.resolver.resolve(domain, "MX"); return len(records) > 0`
`except: return False`. -/
def validate_mx (resolve : Resolver) (domain : List Char) : Bool :=
  match resolve domain with
  | Except.ok records => decide (0 < records.length)
  | Except.error _ => false

/-- `email.split("@")[1]` (src/app.py line 70).  Python raises `IndexError`
when the split has no second field; the classifier only evaluates this under
`validate_syntax`, where the split provably has exactly two fields, so the
default `[]` is never produced there. -/
def extract_domain (email : List Char) : List Char :=
  (splitOnChar '@' email).getD 1 []

/-- `validate_email` (src/app.py lines 66-75), the validation classifier. -/
def validate_email (resolve : Resolver) (email : List Char) : String × String :=
  if checkSyntax email = false then ("Invalid Syntax", "Low")
  else
    if validate_mx resolve (extract_domain email) then ("Valid Domain", "High")
    else ("No MX Record", "Medium")

/-- `validate_email` instrumented with a counter of how many MX lookups the
run performs: `0` on the invalid-syntax branch (the source returns before
`validate_mx` is reached), `1` on the others. -/
def validate_email_counted (resolve : Resolver) (email : List Char) :
    (String × String) × Nat :=
  if checkSyntax email = false then (("Invalid Syntax", "Low"), 0)
  else
    if validate_mx resolve (extract_domain email) then (("Valid Domain", "High"), 1)
    else (("No MX Record", "Medium"), 1)

/-- The confidence tier each status is paired with in src/app.py lines 66-75. -/
def confidence_of_status (status : String) : String :=
  if status = "Invalid Syntax" then "Low"
  else if status = "Valid Domain" then "High"
  else "Medium"

lemma validate_email_counted_fst (resolve : Resolver) (email : List Char) :
    (validate_email_counted resolve email).1 = validate_email resolve email := by
  unfold validate_email_counted validate_email
  by_cases h : checkSyntax email = false
  · simp [h]
  · by_cases hmx : validate_mx resolve (extract_domain email) <;> simp [h, hmx]

/-!
## Email synthesizer

src/app.py lines 145-150:
`df["email"] = df["first_name"].str.lower() + separator`
`             + df["last_name"].str.lower() + email_suffix.lower()`.
Note that the source lowercases the suffix as well.
-/

/-- The email synthesis of src/app.py lines 145-150. -/
def synthesize_email (separator email_suffix first_name last_name : List Char) :
    List Char :=
  first_name.map Char.toLower ++ separator ++
    last_name.map Char.toLower ++ email_suffix.map Char.toLower

/-- The synthesis formula exactly as the claim words it: the suffix is
appended as supplied, not lowercased. -/
def spec_synthesize (separator email_suffix first_name last_name : List Char) :
    List Char :=
  first_name.map Char.toLower ++ separator ++
    last_name.map Char.toLower ++ email_suffix

/-!
## Pipeline orchestrator

`scrape_profiles` (src/app.py lines 81-113) collects `(title, link)` rows,
keeping only rows whose title is non-empty and contains a hyphen
(line 108), and ends with `pd.DataFrame(rows).drop_duplicates()`
(line 113), which removes exact duplicate rows keeping each first
occurrence in order.  The main action (lines 139-157) then derives the
name, email and validation columns row by row.
-/

/-- One raw search result: `{"Title": title, "Link": link}` (line 109). -/
structure RawRecord where
  title : List Char
  link : List Char
  deriving DecidableEq

/-- The filter of src/app.py line 108: `if title and "-" in title`
(a non-empty title that contains a hyphen). -/
def keepRecord (r : RawRecord) : Bool :=
  !r.title.isEmpty && decide ('-' ∈ r.title)

/-- `drop_duplicates()` keeping first occurrences: a row equal to an
already-seen row is dropped, everything else is kept in order. -/
def dedupFirstAux (seen : List RawRecord) : List RawRecord → List RawRecord
  | [] => []
  | r :: rs => if r ∈ seen then dedupFirstAux seen rs
               else r :: dedupFirstAux (r :: seen) rs

/-- `pd.DataFrame(rows).drop_duplicates()` (src/app.py line 113). -/
def dedupRecords (l : List RawRecord) : List RawRecord :=
  dedupFirstAux [] l

/-- One row of the final table (the columns of src/app.py lines 139-157). -/
structure ResultRow where
  title : List Char
  link : List Char
  full_name : List Char
  position : List Char
  first_name : List Char
  last_name : List Char
  email : List Char
  validation_status : String
  confidence : String
  deriving DecidableEq

/-- The per-row processing of src/app.py lines 139-157: parse the title,
synthesize the address, classify it.  `none` when the title has no hyphen
(such rows never reach this stage: line 108 filtered them out). -/
def processRecord (separator email_suffix : List Char) (resolve : Resolver)
    (r : RawRecord) : Option ResultRow :=
  (parseTitle r.title).map fun p =>
    let email := synthesize_email separator email_suffix p.first_name p.last_name
    let verdict := validate_email resolve email
    { title := r.title, link := r.link,
      full_name := p.full_name, position := p.position,
      first_name := p.first_name, last_name := p.last_name,
      email := email,
      validation_status := verdict.1, confidence := verdict.2 }

/-- The whole pipeline over a batch: filter (line 108), deduplicate
(line 113), then process each surviving record (lines 139-157). -/
def runPipeline (separator email_suffix : List Char) (resolve : Resolver)
    (records : List RawRecord) : List ResultRow :=
  (dedupRecords (records.filter keepRecord)).filterMap
    (processRecord separator email_suffix resolve)

lemma dedupFirstAux_sublist (l : List RawRecord) :
    ∀ seen, (dedupFirstAux seen l).Sublist l := by
  induction l with
  | nil =>
      intro seen
      simp [dedupFirstAux]
  | cons r rs ih =>
      intro seen
      by_cases h : r ∈ seen
      · simp only [dedupFirstAux, if_pos h]
        exact (ih seen).cons r
      · simp only [dedupFirstAux, if_neg h]
        exact (ih (r :: seen)).cons₂ r

lemma dedupFirstAux_nodup (l : List RawRecord) :
    ∀ seen, (dedupFirstAux seen l).Nodup ∧ ∀ x ∈ dedupFirstAux seen l, x ∉ seen := by
  induction l with
  | nil =>
      intro seen
      simp [dedupFirstAux]
  | cons r rs ih =>
      intro seen
      by_cases h : r ∈ seen
      · simpa only [dedupFirstAux, if_pos h] using ih seen
      · simp only [dedupFirstAux, if_neg h]
        obtain ⟨hnd, hnotin⟩ := ih (r :: seen)
        refine ⟨List.nodup_cons.mpr ⟨fun hmem => ?_, hnd⟩, fun x hx => ?_⟩
        · exact (hnotin r hmem) (List.mem_cons_self r seen)
        · rcases List.mem_cons.mp hx with rfl | hx'
          · exact h
          · exact fun hxs => (hnotin x hx') (List.mem_cons_of_mem r hxs)

/-- `dedupFirstAux` depends on `seen` only through membership. -/
lemma dedupFirstAux_congr (l : List RawRecord) :
    ∀ seen₁ seen₂, (∀ x, x ∈ seen₁ ↔ x ∈ seen₂) →
      dedupFirstAux seen₁ l = dedupFirstAux seen₂ l := by
  induction l with
  | nil =>
      intro _ _ _
      rfl
  | cons r rs ih =>
      intro seen₁ seen₂ hmem
      by_cases h : r ∈ seen₁
      · have h2 : r ∈ seen₂ := (hmem r).mp h
        simp only [dedupFirstAux, if_pos h, if_pos h2]
        exact ih seen₁ seen₂ hmem
      · have h2 : r ∉ seen₂ := fun hx => h ((hmem r).mpr hx)
        simp only [dedupFirstAux, if_neg h, if_neg h2]
        rw [ih (r :: seen₁) (r :: seen₂) (fun x => by simp [hmem x])]

/-- Marking `r` as seen is the same as deleting every copy of `r` from the
rest of the input. -/
lemma dedupFirstAux_erase (l : List RawRecord) :
    ∀ seen r, dedupFirstAux (r :: seen) l =
      dedupFirstAux seen (l.filter (fun x => x ≠ r)) := by
  induction l with
  | nil =>
      intro seen r
      rfl
  | cons y ys ih =>
      intro seen r
      by_cases hyr : y = r
      · subst hyr
        have h1 : y ∈ y :: seen := List.mem_cons_self y seen
        simp only [dedupFirstAux, if_pos h1, List.filter_cons]
        rw [if_neg (by simp)]
        exact ih seen y
      · by_cases hys : y ∈ seen
        · have h1 : y ∈ r :: seen := List.mem_cons_of_mem r hys
          simp only [dedupFirstAux, if_pos h1, List.filter_cons]
          rw [if_pos (by simp [hyr])]
          simp only [dedupFirstAux, if_pos hys]
          exact ih seen r
        · have h1 : y ∉ r :: seen := by
            intro hmem
            rcases List.mem_cons.mp hmem with h2 | h2
            · exact hyr h2
            · exact hys h2
          simp only [dedupFirstAux, if_neg h1, List.filter_cons]
          rw [if_pos (by simp [hyr])]
          simp only [dedupFirstAux, if_neg hys]
          rw [dedupFirstAux_congr ys (y :: r :: seen) (r :: y :: seen)
            (fun x => by constructor <;> (intro hx; simp at hx; simp [hx]; tauto)),
            ih (y :: seen) r]

/-- The defining recursion of keep-first deduplication: the head survives,
its later duplicates are deleted, the rest is deduplicated in order. -/
lemma dedupRecords_cons (s : RawRecord) (rest : List RawRecord) :
    dedupRecords (s :: rest) =
      s :: dedupRecords (rest.filter (fun x => x ≠ s)) := by
  unfold dedupRecords
  rw [show dedupFirstAux ([] : List RawRecord) (s :: rest) =
      s :: dedupFirstAux [s] rest from by simp [dedupFirstAux]]
  rw [dedupFirstAux_erase rest [] s]

lemma mem_dedupFirstAux_of (l : List RawRecord) :
    ∀ seen x, x ∈ l → x ∉ seen → x ∈ dedupFirstAux seen l := by
  induction l with
  | nil =>
      intro seen x hx _
      cases hx
  | cons y ys ih =>
      intro seen x hx hns
      by_cases hy : y ∈ seen
      · simp only [dedupFirstAux, if_pos hy]
        rcases List.mem_cons.mp hx with rfl | hx'
        · exact absurd hy hns
        · exact ih seen x hx' hns
      · simp only [dedupFirstAux, if_neg hy]
        rcases List.mem_cons.mp hx with rfl | hx'
        · exact List.mem_cons_self x _
        · by_cases hxy : x = y
          · subst hxy
            exact List.mem_cons_self x _
          · refine List.mem_cons_of_mem y (ih (y :: seen) x hx' ?_)
            intro hmem
            rcases List.mem_cons.mp hmem with h2 | h2
            · exact hxy h2
            · exact hns h2

/-- `drop_duplicates` drops nothing but duplicates: the element sets of
input and output coincide. -/
lemma mem_dedupRecords (l : List RawRecord) (x : RawRecord) :
    x ∈ dedupRecords l ↔ x ∈ l := by
  constructor
  · intro hx
    exact (dedupFirstAux_sublist l []).subset hx
  · intro hx
    exact mem_dedupFirstAux_of l [] x hx (List.not_mem_nil x)

lemma mem_of_keepRecord {r : RawRecord} (h : keepRecord r = true) : '-' ∈ r.title := by
  unfold keepRecord at h
  simp only [Bool.and_eq_true, decide_eq_true_eq] at h
  exact h.2

/-- The Name Parser succeeds on every title that contains a hyphen. -/
lemma parseTitle_of_hyphen (title : List Char) (h : '-' ∈ title) :
    ∃ p, parseTitle title = some p := by
  obtain ⟨a, b, rfl, hna⟩ := exists_first_split '-' title h
  obtain ⟨rest, hrest⟩ := splitOnChar_head '-' b
  refine ⟨{ full_name := trimChars a,
            position := trimChars (b.takeWhile (fun c => c != '-')),
            first_name := firstToken (trimChars a),
            last_name := lastToken (trimChars a) }, ?_⟩
  unfold parseTitle
  rw [splitOnChar_append '-' a b hna, hrest]

/-- A resolver stub whose every lookup returns one MX record. -/
def stubResolverOk : Resolver :=
  fun _ => Except.ok [{ priority := 10, exchange := "mx.example.com".toList }]

/-- A resolver stub whose every lookup times out. -/
def stubResolverFail : Resolver :=
  fun _ => Except.error DnsFailure.timeout

/-!
## Claims
-/

/-- C1: for every resolver behaviour and every address, `validate_email`
returns exactly one of (Invalid Syntax, Low), (Valid Domain, High),
(No MX Record, Medium), according to the syntax check and the MX lookup of
the domain part; no other pair ever occurs, and the confidence is a
function of the status alone. -/
theorem C1_classifier_three_outcomes (resolve : Resolver) (email : List Char) :
    (checkSyntax email = false →
      validate_email resolve email = ("Invalid Syntax", "Low")) ∧
    (checkSyntax email = true →
      validate_mx resolve (extract_domain email) = true →
      validate_email resolve email = ("Valid Domain", "High")) ∧
    (checkSyntax email = true →
      validate_mx resolve (extract_domain email) = false →
      validate_email resolve email = ("No MX Record", "Medium")) ∧
    (validate_email resolve email = ("Invalid Syntax", "Low") ∨
      validate_email resolve email = ("Valid Domain", "High") ∨
      validate_email resolve email = ("No MX Record", "Medium")) ∧
    (validate_email resolve email).2 =
      confidence_of_status (validate_email resolve email).1 := by
  cases hs : checkSyntax email
  · simp [validate_email, hs, confidence_of_status]
  · cases hmx : validate_mx resolve (extract_domain email) <;>
      simp [validate_email, hs, hmx, confidence_of_status]

theorem C1_witness :
    checkSyntax ("a.b@c.com".toList) = true ∧
    validate_mx stubResolverOk (extract_domain ("a.b@c.com".toList)) = true ∧
    validate_email stubResolverOk ("a.b@c.com".toList) = ("Valid Domain", "High") :=
  ⟨by decide, by decide,
    (C1_classifier_three_outcomes stubResolverOk ("a.b@c.com".toList)).2.1
      (by decide) (by decide)⟩

/-- C4: on an address whose syntax check fails, the classifier performs no
MX lookup (the instrumented classifier counts zero resolver calls) and its
result does not depend on the resolver at all. -/
theorem C4_no_mx_on_invalid_address (email : List Char)
    (h : checkSyntax email = false) :
    (∀ resolve : Resolver, (validate_email_counted resolve email).2 = 0) ∧
    (∀ r1 r2 : Resolver, validate_email r1 email = validate_email r2 email) := by
  refine ⟨fun resolve => ?_, fun r1 r2 => ?_⟩
  · simp [validate_email_counted, h]
  · simp [validate_email, h]

theorem C4_witness :
    checkSyntax ("not-an-email".toList) = false ∧
    (validate_email_counted stubResolverOk ("not-an-email".toList)).2 = 0 ∧
    validate_email stubResolverOk ("not-an-email".toList) =
      validate_email stubResolverFail ("not-an-email".toList) :=
  ⟨by decide,
    (C4_no_mx_on_invalid_address ("not-an-email".toList) (by decide)).1 stubResolverOk,
    (C4_no_mx_on_invalid_address ("not-an-email".toList) (by decide)).2
      stubResolverOk stubResolverFail⟩

/-- C8: `validate_mx` returns true exactly when the lookup succeeds with at
least one record, and returns false on every resolution failure; being a
total function into `Bool`, it propagates no exception to its caller. -/
theorem C8_mx_checker (resolve : Resolver) (domain : List Char) :
    (validate_mx resolve domain = true ↔
      ∃ records, resolve domain = Except.ok records ∧ 0 < records.length) ∧
    (∀ e, resolve domain = Except.error e → validate_mx resolve domain = false) := by
  constructor
  · constructor
    · intro h
      unfold validate_mx at h
      rcases hres : resolve domain with e | records
      · rw [hres] at h
        simp at h
      · rw [hres] at h
        simp only [decide_eq_true_eq] at h
        exact ⟨records, rfl, h⟩
    · rintro ⟨records, hres, hlen⟩
      unfold validate_mx
      rw [hres]
      simpa using hlen
  · intro e hres
    unfold validate_mx
    rw [hres]

theorem C8_witness :
    stubResolverFail ("acme.com".toList) = Except.error DnsFailure.timeout ∧
    validate_mx stubResolverFail ("acme.com".toList) = false :=
  ⟨rfl, (C8_mx_checker stubResolverFail ("acme.com".toList)).2 DnsFailure.timeout rfl⟩

/-- C5 (amended): `checkSyntax` accepts exactly the strings that, after the
removal of one trailing newline if present (Python's `$` also matches just
before a final newline), consist of one-or-more local-class characters, `@`,
one-or-more domain-class characters, `.`, and two-or-more letters; in
particular it accepts `"a.b@c.com"` and rejects `"not-an-email"`. -/
theorem C5_syntax_pattern (s : List Char) :
    (checkSyntax s = true ↔ specEmailPattern (dropTrailingNewline s)) ∧
    checkSyntax ("a.b@c.com".toList) = true ∧
    checkSyntax ("not-an-email".toList) = false :=
  ⟨matchEmailCore_iff (dropTrailingNewline s), by decide, by decide⟩

/-- C5 counterexample: `"a.b@c.com\n"` is accepted by `checkSyntax` although
it does not consist of the claimed pattern (its last character is a newline,
not a letter), so the claimed exact characterisation fails. -/
theorem C5_counterexample :
    checkSyntax ("a.b@c.com\n".toList) = true ∧
    ¬ specEmailPattern ("a.b@c.com\n".toList) := by
  refine ⟨by decide, fun h => ?_⟩
  have hm := (matchEmailCore_iff ("a.b@c.com\n".toList)).mpr h
  revert hm
  decide

lemma at_split_facts (email l d : List Char) (he : email = l ++ '@' :: d)
    (hl : '@' ∉ l) (hd : '@' ∉ d) :
    email.count '@' = 1 ∧ (splitOnChar '@' email).length = 2 ∧
      extract_domain email = d := by
  subst he
  have hsplit : splitOnChar '@' (l ++ '@' :: d) = l :: splitOnChar '@' d :=
    splitOnChar_append '@' l d hl
  have hd1 : splitOnChar '@' d = [d] := splitOnChar_of_not_mem '@' d hd
  refine ⟨?_, ?_, ?_⟩
  · rw [List.count_append, List.count_cons_self,
      List.count_eq_zero.mpr hl, List.count_eq_zero.mpr hd]
  · rw [hsplit, hd1]
    rfl
  · unfold extract_domain
    rw [hsplit, hd1]
    rfl

/-- C10: every address accepted by `checkSyntax` contains exactly one `@`;
the hyphen split has exactly two fields, so the `[1]` index of
`email.split("@")` is in bounds, and `extract_domain` returns precisely the
whole substring after the `@`. -/
theorem C10_domain_extraction_safe (email : List Char)
    (h : checkSyntax email = true) :
    email.count '@' = 1 ∧ (splitOnChar '@' email).length = 2 ∧
    ∃ l d, email = l ++ '@' :: d ∧ '@' ∉ l ∧ '@' ∉ d ∧
      extract_domain email = d := by
  obtain ⟨l, d0, t, hdec, hlne, hlocal, hdne, hdom, hlen, halpha⟩ :=
    (matchEmailCore_iff (dropTrailingNewline email)).mp h
  have hl : '@' ∉ l := fun hm => absurd (hlocal _ hm) (by decide)
  rcases dropTrailingNewline_cases email with he | he
  · rw [hdec] at he
    have hd : '@' ∉ d0 ++ '.' :: t := by
      intro hm
      rcases List.mem_append.mp hm with h1 | h1
      · exact absurd (hdom _ h1) (by decide)
      · rcases List.mem_cons.mp h1 with h2 | h2
        · exact absurd h2 (by decide)
        · exact absurd (halpha _ h2) (by decide)
    obtain ⟨hc, hsl, hex⟩ := at_split_facts email l (d0 ++ '.' :: t) he hl hd
    exact ⟨hc, hsl, l, d0 ++ '.' :: t, he, hl, hd, hex⟩
  · rw [hdec] at he
    have he' : email = l ++ '@' :: (d0 ++ '.' :: t ++ ['\n']) := by
      rw [he]
      simp
    have hd : '@' ∉ d0 ++ '.' :: t ++ ['\n'] := by
      intro hm
      rcases List.mem_append.mp hm with h1 | h1
      · rcases List.mem_append.mp h1 with h2 | h2
        · exact absurd (hdom _ h2) (by decide)
        · rcases List.mem_cons.mp h2 with h3 | h3
          · exact absurd h3 (by decide)
          · exact absurd (halpha _ h3) (by decide)
      · rcases List.mem_cons.mp h1 with h2 | h2
        · exact absurd h2 (by decide)
        · simp at h2
    obtain ⟨hc, hsl, hex⟩ :=
      at_split_facts email l (d0 ++ '.' :: t ++ ['\n']) he' hl hd
    exact ⟨hc, hsl, l, d0 ++ '.' :: t ++ ['\n'], he', hl, hd, hex⟩

theorem C10_witness :
    checkSyntax ("a.b@c.com".toList) = true ∧
    (("a.b@c.com".toList).count '@' = 1 ∧
      (splitOnChar '@' ("a.b@c.com".toList)).length = 2 ∧
      ∃ l d, "a.b@c.com".toList = l ++ '@' :: d ∧ '@' ∉ l ∧ '@' ∉ d ∧
        extract_domain ("a.b@c.com".toList) = d) :=
  ⟨by decide, C10_domain_extraction_safe ("a.b@c.com".toList) (by decide)⟩

/-- C2 (amended): synthesis is the pure concatenation
lowercase(firstName) + separator + lowercase(lastName) +
lowercase(domainSuffix) — the suffix is lowercased too, unlike the claim's
"exactly as supplied"; with separator `"."` / `"_"` and suffix
`"@acme.com"`, `Jane Doe` yields `jane.doe@acme.com` / `jane_doe@acme.com`. -/
theorem C2_synthesis (separator email_suffix first_name last_name : List Char)
    (_h1 : first_name ≠ []) (_h2 : last_name ≠ []) :
    synthesize_email separator email_suffix first_name last_name =
      first_name.map Char.toLower ++ separator ++
        last_name.map Char.toLower ++ email_suffix.map Char.toLower ∧
    synthesize_email (".".toList) ("@acme.com".toList)
      ("Jane".toList) ("Doe".toList) = "jane.doe@acme.com".toList ∧
    synthesize_email ("_".toList) ("@acme.com".toList)
      ("Jane".toList) ("Doe".toList) = "jane_doe@acme.com".toList :=
  ⟨rfl, by decide, by decide⟩

theorem C2_witness :
    synthesize_email (".".toList) ("@acme.com".toList)
      ("Jane".toList) ("Doe".toList) = "jane.doe@acme.com".toList :=
  (C2_synthesis (".".toList) ("@acme.com".toList) ("Jane".toList) ("Doe".toList)
    (by decide) (by decide)).2.1

/-- C2 counterexample: with the suffix `"@Acme.com"` the code produces
`jane.doe@acme.com`, not the claimed `jane.doe@Acme.com`: the suffix is not
appended exactly as supplied. -/
theorem C2_counterexample :
    synthesize_email (".".toList) ("@Acme.com".toList)
        ("Jane".toList) ("Doe".toList) ≠
      spec_synthesize (".".toList) ("@Acme.com".toList)
        ("Jane".toList) ("Doe".toList) := by
  decide

/-- C3 (amended): for a title of the form `a ++ "-" ++ b` with no hyphen in
`a`, the parser's `full_name` is the trimmed text before the first hyphen,
but its `position` is the trimmed text between the first and second hyphens
(`title.split("-")[1]`), not the whole remainder after the first hyphen. -/
theorem C3_first_hyphen_split (title a b : List Char) (hna : '-' ∉ a)
    (heq : title = a ++ '-' :: b) :
    parseTitle title =
      some { full_name := trimChars a,
             position := trimChars (b.takeWhile (fun c => c != '-')),
             first_name := firstToken (trimChars a),
             last_name := lastToken (trimChars a) } := by
  subst heq
  obtain ⟨rest, hrest⟩ := splitOnChar_head '-' b
  unfold parseTitle
  rw [splitOnChar_append '-' a b hna, hrest]

theorem C3_witness :
    ('-' ∉ ("A ".toList)) ∧
    parseTitle ("A - B - C".toList) =
      some { full_name := trimChars ("A ".toList),
             position := trimChars ((" B - C".toList).takeWhile (fun c => c != '-')),
             first_name := firstToken (trimChars ("A ".toList)),
             last_name := lastToken (trimChars ("A ".toList)) } :=
  ⟨by decide,
    C3_first_hyphen_split ("A - B - C".toList) ("A ".toList) (" B - C".toList)
      (by decide) (by decide)⟩

/-- C3 counterexample: in `"A - B - C"` the whitespace-trimmed remainder
after the first hyphen is `"B - C"`, but the parser's `position` is `"B"`
(the field between the first and second hyphens). -/
theorem C3_counterexample :
    (parseTitle ("A - B - C".toList)).map ParsedName.position ≠
      some (trimChars (" B - C".toList)) := by
  decide

/-- C9: on a title with exactly one hyphen, parsing succeeds, and
`full_name` / `position` are exactly the two sides of the hyphen with
surrounding whitespace trimmed — so `full_name ++ "-" ++ position` is the
original title up to that trimming. -/
theorem C9_parse_roundtrip (title : List Char) (h : title.count '-' = 1) :
    ∃ a b p, title = a ++ '-' :: b ∧ parseTitle title = some p ∧
      p.full_name = trimChars a ∧ p.position = trimChars b := by
  have hmem : '-' ∈ title := List.count_pos_iff.mp (by omega)
  obtain ⟨a, b, rfl, hna⟩ := exists_first_split '-' title hmem
  have hb : '-' ∉ b := by
    rw [List.count_append, List.count_cons_self, List.count_eq_zero.mpr hna] at h
    exact List.count_eq_zero.mp (by omega)
  have hsplit : splitOnChar '-' (a ++ '-' :: b) = [a, b] := by
    rw [splitOnChar_append '-' a b hna, splitOnChar_of_not_mem '-' b hb]
  refine ⟨a, b,
    { full_name := trimChars a, position := trimChars b,
      first_name := firstToken (trimChars a), last_name := lastToken (trimChars a) },
    rfl, ?_, rfl, rfl⟩
  unfold parseTitle
  rw [hsplit]

theorem C9_witness :
    ("Jane Doe - HR Manager".toList).count '-' = 1 ∧
    ∃ a b p, "Jane Doe - HR Manager".toList = a ++ '-' :: b ∧
      parseTitle ("Jane Doe - HR Manager".toList) = some p ∧
      p.full_name = trimChars a ∧ p.position = trimChars b :=
  ⟨by decide, C9_parse_roundtrip ("Jane Doe - HR Manager".toList) (by decide)⟩

/-- C6: a batch of two identical (parseable) records yields exactly one
result row; deduplication is by the exact `(title, link)` pair and keeps the
first occurrence of each record in input order, never re-sorted: the
deduplicated batch is a duplicate-free sublist of the input with exactly the
input's elements, and it satisfies the defining recursion of keep-first
deduplication — the first record survives in place and only its later
copies are deleted before the rest is deduplicated. -/
theorem C6_dedup_first_occurrence (separator email_suffix : List Char)
    (resolve : Resolver) (r : RawRecord) (records : List RawRecord)
    (h : keepRecord r = true) :
    (runPipeline separator email_suffix resolve [r, r]).length = 1 ∧
    (dedupRecords (records.filter keepRecord)).Sublist records ∧
    (dedupRecords (records.filter keepRecord)).Nodup ∧
    (∀ x, x ∈ dedupRecords records ↔ x ∈ records) ∧
    dedupRecords [] = [] ∧
    (∀ (s : RawRecord) (rest : List RawRecord),
      dedupRecords (s :: rest) =
        s :: dedupRecords (rest.filter (fun x => x ≠ s))) := by
  refine ⟨?_, ?_, ?_, mem_dedupRecords records, rfl, dedupRecords_cons⟩
  · obtain ⟨p, hp⟩ := parseTitle_of_hyphen r.title (mem_of_keepRecord h)
    have hfilter : [r, r].filter keepRecord = [r, r] := by
      simp [List.filter_cons, h]
    have hded : dedupFirstAux [] [r, r] = [r] := by
      simp [dedupFirstAux]
    unfold runPipeline dedupRecords
    rw [hfilter, hded]
    simp [List.filterMap_cons, processRecord, hp]
  · exact (dedupFirstAux_sublist _ []).trans (List.filter_sublist records)
  · exact (dedupFirstAux_nodup _ []).1

theorem C6_witness :
    keepRecord ⟨"Jane Doe - HR Manager".toList, "x".toList⟩ = true ∧
    (runPipeline (".".toList) ("@acme.com".toList) stubResolverOk
      [⟨"Jane Doe - HR Manager".toList, "x".toList⟩,
       ⟨"Jane Doe - HR Manager".toList, "x".toList⟩]).length = 1 :=
  ⟨by decide,
    (C6_dedup_first_occurrence (".".toList) ("@acme.com".toList) stubResolverOk
      ⟨"Jane Doe - HR Manager".toList, "x".toList⟩ [] (by decide)).1⟩

/-- C7: a record whose title contains no hyphen contributes no result row:
the batch output equals the output of the batch with that record removed,
and on its own such a record produces the empty table. -/
theorem C7_hyphenless_dropped (separator email_suffix : List Char)
    (resolve : Resolver) (r : RawRecord) (l1 l2 : List RawRecord)
    (h : '-' ∉ r.title) :
    runPipeline separator email_suffix resolve (l1 ++ r :: l2) =
      runPipeline separator email_suffix resolve (l1 ++ l2) ∧
    runPipeline separator email_suffix resolve [r] = [] := by
  have hk : keepRecord r = false := by
    simp [keepRecord, h]
  constructor
  · have hfilter : (l1 ++ r :: l2).filter keepRecord =
        (l1 ++ l2).filter keepRecord := by
      simp [List.filter_append, List.filter_cons, hk]
    unfold runPipeline
    rw [hfilter]
  · unfold runPipeline
    simp [List.filter_cons, hk, dedupRecords, dedupFirstAux]

theorem C7_witness :
    ('-' ∉ ("Jane Doe HR Manager".toList)) ∧
    runPipeline (".".toList) ("@acme.com".toList) stubResolverOk
        ([⟨"Ann Lee - HR".toList, "a".toList⟩] ++
          ⟨"Jane Doe HR Manager".toList, "b".toList⟩ :: []) =
      runPipeline (".".toList) ("@acme.com".toList) stubResolverOk
        ([⟨"Ann Lee - HR".toList, "a".toList⟩] ++ []) :=
  ⟨by decide,
    (C7_hyphenless_dropped (".".toList) ("@acme.com".toList) stubResolverOk
      ⟨"Jane Doe HR Manager".toList, "b".toList⟩
      [⟨"Ann Lee - HR".toList, "a".toList⟩] [] (by decide)).1⟩

end EmailGen
